import Mathlib

/-!
Verification of the cc-parser text pipeline.

This file gives a shallow embedding, at the level of character lists, of the
text-processing core of the repository: `CustomPDFParser._clean_text`,
`CustomPDFParser._remove_headers_footers`, `CustomPDFParser.parse_pdf`
(src/parser.py) and `CreditCardStatementParser` (src/credit_card_parser.py).
Python strings are modelled as `List Char`; each definition is a direct
translation of the corresponding Python function.
-/

namespace CCStmt

/-- Python whitespace test used by `str.strip` / `str.split`: true on the
characters the CPython `str.isspace` accepts (ASCII controls 0x09-0x0D,
0x1C-0x1F, space, NEL, NBSP, and the Unicode space separators). -/
def pyIsSpace (c : Char) : Bool :=
  let n := c.toNat
  (9 ≤ n && n ≤ 13) || (28 ≤ n && n ≤ 31) || n == 32 || n == 133 || n == 160 ||
  n == 5760 || (8192 ≤ n && n ≤ 8202) || n == 8232 || n == 8233 || n == 8239 ||
  n == 8287 || n == 12288

/-- Remove trailing Python whitespace, one half of `str.strip`. -/
def dropTrail (s : List Char) : List Char :=
  (s.reverse.dropWhile pyIsSpace).reverse

/-- Python `str.strip()`: remove leading and trailing whitespace.  The two
sides commute, so stripping the tail first fixes one evaluation order. -/
def pyStrip (s : List Char) : List Char :=
  (dropTrail s).dropWhile pyIsSpace

/-- Python `str.split('\n')`: always returns at least one piece, pieces
contain no newline. -/
def splitNL : List Char → List (List Char)
  | [] => [[]]
  | c :: rest =>
    if c = '\n' then [] :: splitNL rest
    else List.modifyHead (fun l => c :: l) (splitNL rest)

/-- Python `'\n'.join(lines)` on the pieces. -/
def joinNL : List (List Char) → List Char
  | [] => []
  | [l] => l
  | l :: m :: ls => l ++ '\n' :: joinNL (m :: ls)

/-- Truthiness of `cleaned_lines and cleaned_lines[-1]` in `_clean_text`:
the accumulator is nonempty and its last kept line is nonempty. -/
def lastKeptNonempty (acc : List (List Char)) : Bool :=
  match acc.getLast? with
  | some l => !l.isEmpty
  | none => false

/-- The line-filtering loop of `_clean_text`: strip each line, keep nonempty
lines, and keep an empty line only when the previously kept line exists and
is nonempty. -/
def cleanLinesGo (acc : List (List Char)) : List (List Char) → List (List Char)
  | [] => acc
  | l :: rest =>
    let s := pyStrip l
    if !s.isEmpty then cleanLinesGo (acc ++ [s]) rest
    else if lastKeptNonempty acc then cleanLinesGo (acc ++ [[]]) rest
    else cleanLinesGo acc rest

/-- Recast of `cleanLinesGo` with the accumulator factored out: the Boolean
argument records whether the previously kept line exists and is nonempty. -/
def cleanFrom (prev : Bool) : List (List Char) → List (List Char)
  | [] => []
  | l :: rest =>
    let s := pyStrip l
    if !s.isEmpty then s :: cleanFrom true rest
    else if prev then [] :: cleanFrom false rest
    else cleanFrom prev rest

/-- Occurrence test `'\n\n\n' in s`. -/
def containsTriple : List Char → Bool
  | [] => false
  | c :: rest =>
    (decide (c = '\n') && decide (rest.take 2 = ['\n', '\n'])) || containsTriple rest

/-- One pass of `s.replace('\n\n\n', '\n\n')`: left-to-right, non-overlapping,
resuming after each replaced occurrence. -/
def replTriple : List Char → List Char
  | [] => []
  | [c] => [c]
  | [c, d] => [c, d]
  | c :: d :: e :: rest =>
    if c = '\n' ∧ d = '\n' ∧ e = '\n' then '\n' :: '\n' :: replTriple rest
    else c :: replTriple (d :: e :: rest)

/-- The loop `while '\n\n\n' in t: t = t.replace('\n\n\n', '\n\n')`, run with
an explicit iteration budget.  Each iteration with an occurrence present
strictly shortens the string, so a budget of `s.length` always suffices
(`collapseTriplesGo_no_triple` below); the budgeted function is therefore an
exact model of the unbounded loop. -/
def collapseTriplesGo : Nat → List Char → List Char
  | 0, s => s
  | fuel + 1, s => if containsTriple s then collapseTriplesGo fuel (replTriple s) else s

/-- The `while` loop of `_clean_text`, at its full budget. -/
def collapseTriples (s : List Char) : List Char :=
  collapseTriplesGo s.length s

/-- Model of `CustomPDFParser._clean_text` (src/parser.py): strip each line, drop
blank lines except a single paragraph separator after a kept nonempty line,
join with newlines, collapse triple newlines, and strip the result. -/
def cleanText (t : List Char) : List Char :=
  if t.isEmpty then []
  else pyStrip (collapseTriples (joinNL (cleanLinesGo [] (splitNL t))))

/-- Shape invariant maintained by the line-filtering loop: an empty line may
appear only when the flag allows it (that is, directly after a kept nonempty
line), so blank lines are single and never leading. -/
def wellSpaced : Bool → List (List Char) → Bool
  | _, [] => true
  | b, l :: rest => if l.isEmpty then b && wellSpaced false rest else wellSpaced true rest

/-- Length of the leading newline run. -/
def leadNL : List Char → Nat
  | [] => 0
  | c :: rest => if c = '\n' then leadNL rest + 1 else 0

/-- Drop a single trailing empty line from the kept-lines list; this is
exactly what the final `strip` of `_clean_text` does to the line structure. -/
def dropTrailEmpty (C : List (List Char)) : List (List Char) :=
  if C.getLast? = some [] then C.dropLast else C

/-- Remove the first `k` and the last `m` entries of a line list
(specification vocabulary for the header/footer line-drop bound). -/
def dropEnds (k m : Nat) (l : List (List Char)) : List (List Char) :=
  (l.drop k).take ((l.drop k).length - m)

/-- Number of whitespace-delimited tokens of a string, `len(text.split())`:
the flag records whether the scan is inside a token. -/
def countWordsGo : Bool → List Char → Nat
  | _, [] => 0
  | inWord, c :: rest =>
    if pyIsSpace c then countWordsGo false rest
    else (if inWord then 0 else 1) + countWordsGo true rest

/-- Word count `len(text.split())`. -/
def countWords (s : List Char) : Nat := countWordsGo false s

/-- The two `CustomPDFParser` options the text pipeline consults
(`remove_headers_footers`, `min_text_length`). -/
structure PdfConfig where
  removeHeadersFooters : Bool
  minTextLength : Nat
deriving DecidableEq

/-- The text-level part of a per-page record produced by
`extract_text_from_page` (`page_num`, rotation and mediabox metadata play
no role in the claims). -/
structure PageData where
  text : List Char
  wordCount : Nat
deriving DecidableEq

/-- Model of `extract_text_from_page` on a page whose raw text the external pypdf
extractor produced: clean the text and count its words
(`len(text.split()) if text else 0`). -/
def extractPage (raw : List Char) : PageData :=
  let t := cleanText raw
  { text := t, wordCount := if t.isEmpty then 0 else countWords t }

/-- First line `page["text"].split('\n')[0] if page["text"] else ""`. -/
def firstLineOf (t : List Char) : List Char :=
  if t.isEmpty then [] else (splitNL t).headD []

/-- Last line `page["text"].split('\n')[-1] if page["text"] else ""`. -/
def lastLineOf (t : List Char) : List Char :=
  if t.isEmpty then [] else (splitNL t).getLastD []

/-- Candidate boilerplate lines of `_remove_headers_footers`: distinct
lines occurring on strictly more than half of the pages
(`count > len(pages_data) * 0.5`; `2 * count > n` is exact because `n * 0.5`
is an exact binary float) whose stripped form is nonempty.  The Python
`set` iteration order is irrelevant downstream: only membership is
consulted. -/
def candidates (ls : List (List Char)) (n : Nat) : List (List Char) :=
  ls.dedup.filter (fun l => decide (2 * ls.count l > n) && !(pyStrip l).isEmpty)

/-- Does the line trim-match some candidate
(`lines[0].strip() == header.strip()`)? -/
def matchesAny (cands : List (List Char)) (l : List Char) : Bool :=
  cands.any (fun c => decide (pyStrip l = pyStrip c))

/-- The header phase of the per-page loop of `_remove_headers_footers`:
`if lines and potential_headers: ... if lines[0].strip() == header.strip():
lines = lines[1:]; break` — one drop when any candidate trim-matches. -/
def hfDropHeader (headers : List (List Char)) (lines : List (List Char)) :
    List (List Char) :=
  if !lines.isEmpty && !headers.isEmpty && matchesAny headers (lines.headD []) then
    lines.tail
  else lines

/-- The footer phase, on the possibly already-shortened line list:
`if lines and potential_footers: ... lines = lines[:-1]; break`. -/
def hfDropFooter (footers : List (List Char)) (lines : List (List Char)) :
    List (List Char) :=
  if !lines.isEmpty && !footers.isEmpty && matchesAny footers (lines.getLastD []) then
    lines.dropLast
  else lines

/-- The per-page rewrite of `_remove_headers_footers`: split into lines,
run the header then the footer phase, rejoin with newlines and strip
(`page_data["text"] = '\n'.join(lines).strip()`). -/
def hfStripPage (headers footers : List (List Char)) (t : List Char) : List Char :=
  pyStrip (joinNL (hfDropFooter footers (hfDropHeader headers (splitNL t))))

/-- Model of `_remove_headers_footers` as a function on page-record contents: the
contents of the returned list.  (The Python function rewrites the same
records in place and returns the list it was given; `removeHFWrite` below
models that heap behaviour.) -/
def removeHFPure (cfg : PdfConfig) (pages : List PageData) : List PageData :=
  if pages.length < 3 || !cfg.removeHeadersFooters then pages
  else
    let firsts := pages.map (fun p => firstLineOf p.text)
    let lasts := pages.map (fun p => lastLineOf p.text)
    let headers := candidates firsts pages.length
    let footers := candidates lasts pages.length
    pages.map (fun p => { p with text := hfStripPage headers footers p.text })

/-- Heap-level model of `_remove_headers_footers`: `store` holds the text
field of every page record, `refs` lists the records passed in (store
indices, in list order).  Candidates are computed before the loop; then
`for page_data in pages_data: page_data["text"] = ...` writes through each
reference in turn, and the function returns the very list `pages_data` it
was given. -/
def removeHFWrite (cfg : PdfConfig) (store : List (List Char)) (refs : List Nat) :
    List (List Char) × List Nat :=
  if refs.length < 3 || !cfg.removeHeadersFooters then (store, refs)
  else
    let texts := refs.map (fun r => store.getD r [])
    let headers := candidates (texts.map firstLineOf) refs.length
    let footers := candidates (texts.map lastLineOf) refs.length
    (refs.foldl (fun st r => st.set r (hfStripPage headers footers (st.getD r []))) store,
     refs)

/-- Python `'\n\n'.join(ts)`. -/
def joinDNL : List (List Char) → List Char
  | [] => []
  | [l] => l
  | l :: m :: ls => l ++ '\n' :: '\n' :: joinDNL (m :: ls)

/-- The result record `parse_pdf` assembles (document metadata omitted:
it is read from the external reader and never consulted by the claims). -/
structure ParsedDoc where
  fullText : List Char
  pages : List PageData
  totalPages : Nat
  processedPages : Nat
  totalWords : Nat
deriving DecidableEq

/-- The page-processing core of `parse_pdf`, applied to the per-page raw
texts the external pypdf reader yields: keep the pages whose cleaned text
reaches `min_text_length`, remove headers/footers, and assemble.  The join
skips falsy (empty) page texts, mirroring
`'\n\n'.join(page["text"] for page in pages_data if page["text"])`. -/
def parsePdfPure (cfg : PdfConfig) (raws : List (List Char)) : ParsedDoc :=
  let kept := (raws.map extractPage).filter (fun p => cfg.minTextLength ≤ p.text.length)
  let pages := removeHFPure cfg kept
  { fullText := joinDNL ((pages.map (fun p => p.text)).filter (fun t => !t.isEmpty)),
    pages := pages,
    totalPages := raws.length,
    processedPages := pages.length,
    totalWords := (pages.map (fun p => p.wordCount)).sum }

/-- The Python exceptions crossing the boundaries we model. -/
inductive PyErr where
  | ioError (msg : String)
  | attributeError (msg : String)
deriving DecidableEq

/-- Message `str(e)` of a modelled exception. -/
def errText : PyErr → String
  | .ioError m => m
  | .attributeError m => m

/-- Model of `parse_pdf` with the external file read made explicit: on a read
failure the `except` clause logs and re-raises (`raise`), so the error
propagates to the caller. -/
def parsePdf (cfg : PdfConfig) (pdfRead : Except PyErr (List (List Char))) :
    Except PyErr ParsedDoc :=
  match pdfRead with
  | .error e => .error e
  | .ok raws => .ok (parsePdfPure cfg raws)

/-- Python `str.lower`, per character (the issuer keywords are ASCII). -/
def pyLower (t : List Char) : List Char := t.map Char.toLower

/-- The issuer keyword table of `_detect_issuer`, in insertion order
(Python dicts iterate in it). -/
def issuerTable : List (String × List (List Char)) :=
  [("American Express", ["american express".data, "amex".data]),
   ("Chase", ["chase".data, "jpmorgan chase".data]),
   ("Citibank", ["citibank".data, "citi card".data]),
   ("Capital One", ["capital one".data]),
   ("Bank of America", ["bank of america".data, "bankamericard".data])]

/-- Model of `_detect_issuer`: return the label of the first table entry one of
whose keywords occurs as a substring of the lower-cased text; "Unknown"
when none does. -/
def detectIssuer (t : List Char) : String :=
  match issuerTable.find? (fun p => p.2.any (fun kw => decide (kw <:+: pyLower t))) with
  | some p => p.1
  | none => "Unknown"

/-- One match of the transaction pattern, as the external `re.findall`
engine yields it: the three captured groups. -/
structure TxnMatch where
  date : List Char
  desc : List Char
  amount : List Char
deriving DecidableEq

/-- One extracted transaction record. -/
structure Txn where
  date : List Char
  description : List Char
  amount : List Char
deriving DecidableEq

/-- Post-processing `_extract_transactions` applies to one match: trim the
description, prefix the amount with `$` when the match does not already
carry it. -/
def mkTxn (m : TxnMatch) : Txn :=
  { date := m.date,
    description := pyStrip m.desc,
    amount := if m.amount.head? = some '$' then m.amount else '$' :: m.amount }

/-- Model of `_extract_transactions`, parameterized by the match list the external
regex engine returns for the shared date/description/amount pattern, in
document order: keep the first 5 matches (`matches[:5]`) and post-process
each.  (`transactions if transactions else []` returns the same value.) -/
def extractTransactions (ms : List TxnMatch) : List Txn :=
  (ms.take 5).map mkTxn

/-- The five field-extractor outputs of `parse_statement` whose patterns
run on the external `re` engine. -/
structure StmtFields where
  card4 : Option (List Char)
  period : Option (List Char)
  amount : Option (List Char)
  dueDate : Option (List Char)
  txns : List Txn
deriving DecidableEq

/-- The record `parse_statement` returns: the success variant carries the
extracted fields, the error variant only the message. -/
structure StmtResult where
  issuer : String
  fields : Option StmtFields
  errMsg : Option String
  timestamp : String
deriving DecidableEq

/-- The `CustomPDFParser` configuration `CreditCardStatementParser.__init__`
fixes: header/footer removal off, minimum page text length 5. -/
def ccConfig : PdfConfig := { removeHeadersFooters := false, minTextLength := 5 }

/-- The expression `time.now()` as evaluated by the `except` clause of `parse_statement`:
the stdlib `time` module has no attribute `now`, so the lookup raises. -/
def timeNow : Except PyErr String :=
  .error (.attributeError "module time has no attribute now")

/-- Model of `parse_statement`, with the external collaborators explicit: `pdfRead`
is the outcome of opening and reading the PDF, `extract` stands for the
regex-backed field extraction applied to the full text, and `nowIso` for
`datetime.now().isoformat()`.  When the `try` body fails, the `except`
clause builds the error record — and evaluating `time.now()` inside that
record raises in turn, so the error path propagates an exception. -/
def parseStatement (extract : List Char → StmtFields) (nowIso : String)
    (pdfRead : Except PyErr (List (List Char))) : Except PyErr StmtResult :=
  match parsePdf ccConfig pdfRead with
  | .ok d =>
      .ok { issuer := detectIssuer d.fullText, fields := some (extract d.fullText),
            errMsg := none, timestamp := nowIso }
  | .error e =>
      match timeNow with
      | .ok ts =>
          .ok { issuer := "Unknown", fields := none, errMsg := some (errText e),
                timestamp := ts }
      | .error e2 => .error e2

/-! ## Facts about `replTriple` and `collapseTriples` -/

theorem replTriple_length_le (s : List Char) : (replTriple s).length ≤ s.length := by
  induction s using replTriple.induct with
  | case1 => simp [replTriple]
  | case2 c => simp [replTriple]
  | case3 c d => simp [replTriple]
  | case4 c d e rest h ih =>
    rw [replTriple, if_pos h]
    simp only [List.length_cons]
    omega
  | case5 c d e rest h ih =>
    rw [replTriple, if_neg h]
    simp only [List.length_cons] at *
    omega

theorem replTriple_length_lt (s : List Char) (h : containsTriple s = true) :
    (replTriple s).length < s.length := by
  induction s using replTriple.induct with
  | case1 => simp [containsTriple] at h
  | case2 c => simp [containsTriple] at h
  | case3 c d => simp [containsTriple, List.take] at h
  | case4 c d e rest hc ih =>
    rw [replTriple, if_pos hc]
    simp only [List.length_cons]
    have := replTriple_length_le rest
    omega
  | case5 c d e rest hc ih =>
    rw [replTriple, if_neg hc]
    have h2 : containsTriple (d :: e :: rest) = true := by
      rw [containsTriple] at h
      rcases Bool.or_eq_true_iff.mp h with h1 | h1
      · exfalso
        apply hc
        have hca := of_decide_eq_true (Bool.and_elim_left h1)
        have hcb := of_decide_eq_true (Bool.and_elim_right h1)
        simp only [List.take, List.cons.injEq] at hcb
        exact ⟨hca, hcb.1, hcb.2.1⟩
      · exact h1
    have := ih h2
    simp only [List.length_cons] at *
    omega

theorem collapseTriplesGo_no_triple :
    ∀ fuel s, s.length ≤ fuel → containsTriple (collapseTriplesGo fuel s) = false := by
  intro fuel
  induction fuel with
  | zero =>
    intro s hs
    have : s = [] := List.length_eq_zero.mp (Nat.le_zero.mp hs)
    subst this
    rfl
  | succ n ih =>
    intro s hs
    rw [collapseTriplesGo]
    by_cases h : containsTriple s = true
    · rw [if_pos h]
      apply ih
      have := replTriple_length_lt s h
      omega
    · rw [if_neg h]
      exact Bool.not_eq_true _ ▸ h

theorem containsTriple_collapseTriples (s : List Char) :
    containsTriple (collapseTriples s) = false :=
  collapseTriplesGo_no_triple s.length s (Nat.le_refl _)

theorem collapseTriples_of_no_triple (s : List Char) (h : containsTriple s = false) :
    collapseTriples s = s := by
  unfold collapseTriples
  cases hl : s.length with
  | zero => rfl
  | succ n =>
    rw [collapseTriplesGo, if_neg]
    simp [h]

example : cleanText "  a \n\n\n b \nc ".data = "a\n\nb\nc".data := by decide

example : cleanText "".data = [] := by decide

/-! ## Facts about `pyStrip` -/

theorem pyStrip_nil : pyStrip [] = [] := rfl

theorem dropWhile_head_not (p : Char → Bool) :
    ∀ (s : List Char) (c : Char), (s.dropWhile p).head? = some c → p c = false := by
  intro s
  induction s with
  | nil => intro c h; simp [List.dropWhile] at h
  | cons a t ih =>
    intro c h
    by_cases hp : p a = true
    · rw [List.dropWhile_cons_of_pos hp] at h
      exact ih c h
    · rw [List.dropWhile_cons_of_neg hp] at h
      simp only [List.head?_cons, Option.some.injEq] at h
      subst h
      exact Bool.not_eq_true _ ▸ hp

theorem dropWhile_eq_self (p : Char → Bool) (s : List Char) (c : Char)
    (hh : s.head? = some c) (hc : p c = false) : s.dropWhile p = s := by
  cases s with
  | nil => rfl
  | cons a t =>
    simp only [List.head?_cons, Option.some.injEq] at hh
    subst hh
    exact List.dropWhile_cons_of_neg (by simp [hc])

theorem dropTrail_getLast_not (s : List Char) (c : Char)
    (h : (dropTrail s).getLast? = some c) : pyIsSpace c = false := by
  unfold dropTrail at h
  rw [List.getLast?_reverse] at h
  exact dropWhile_head_not pyIsSpace _ c h

theorem dropTrail_eq_self (s : List Char) (c : Char)
    (hl : s.getLast? = some c) (hc : pyIsSpace c = false) : dropTrail s = s := by
  unfold dropTrail
  rw [dropWhile_eq_self pyIsSpace s.reverse c (by rw [List.head?_reverse]; exact hl) hc,
    List.reverse_reverse]

theorem pyStrip_eq_self (s : List Char) (c d : Char)
    (hh : s.head? = some c) (hcn : pyIsSpace c = false)
    (hl : s.getLast? = some d) (hdn : pyIsSpace d = false) : pyStrip s = s := by
  unfold pyStrip
  rw [dropTrail_eq_self s d hl hdn]
  exact dropWhile_eq_self pyIsSpace s c hh hcn

theorem pyStrip_head_not (s : List Char) (c : Char)
    (h : (pyStrip s).head? = some c) : pyIsSpace c = false :=
  dropWhile_head_not pyIsSpace _ c h

theorem suffix_getLast? {u s : List Char} (h : u <:+ s) (hu : u ≠ []) :
    u.getLast? = s.getLast? := by
  obtain ⟨t, rfl⟩ := h
  exact (List.getLast?_append_of_ne_nil t hu).symm

theorem pyStrip_getLast_not (s : List Char) (c : Char)
    (h : (pyStrip s).getLast? = some c) : pyIsSpace c = false := by
  unfold pyStrip at h
  by_cases he : (dropTrail s).dropWhile pyIsSpace = []
  · rw [he] at h; simp at h
  · rw [suffix_getLast? (List.dropWhile_suffix pyIsSpace) he] at h
    exact dropTrail_getLast_not s c h

theorem pyStrip_idem (s : List Char) : pyStrip (pyStrip s) = pyStrip s := by
  by_cases he : pyStrip s = []
  · rw [he]; rfl
  · obtain ⟨c, hc⟩ : ∃ c, (pyStrip s).head? = some c := by
      cases hps : pyStrip s with
      | nil => exact absurd hps he
      | cons a t => exact ⟨a, by simp⟩
    obtain ⟨d, hd⟩ : ∃ d, (pyStrip s).getLast? = some d := by
      cases hps : pyStrip s with
      | nil => exact absurd hps he
      | cons a t => exact ⟨(a :: t).getLast (by simp), by simp [List.getLast?_eq_getLast]⟩
    exact pyStrip_eq_self _ c d hc (pyStrip_head_not s c hc) hd (pyStrip_getLast_not s d hd)

theorem dropTrail_sublist (s : List Char) : List.Sublist (dropTrail s) s := by
  unfold dropTrail
  have h := List.dropWhile_sublist (l := s.reverse) pyIsSpace
  have := h.reverse
  rwa [List.reverse_reverse] at this

theorem pyStrip_sublist (s : List Char) : List.Sublist (pyStrip s) s :=
  (List.dropWhile_sublist pyIsSpace).trans (dropTrail_sublist s)

theorem pyStrip_no_nl (s : List Char) (h : '\n' ∉ s) : '\n' ∉ pyStrip s :=
  fun hm => h ((pyStrip_sublist s).subset hm)

/-! ## Facts about `splitNL` and `joinNL` -/

theorem splitNL_ne_nil (t : List Char) : splitNL t ≠ [] := by
  induction t with
  | nil => simp [splitNL]
  | cons c rest ih =>
    rw [splitNL]
    by_cases h : c = '\n'
    · simp [h]
    · rw [if_neg h]
      cases hs : splitNL rest with
      | nil => exact absurd hs ih
      | cons l ls => simp [List.modifyHead]

theorem splitNL_no_nl (t : List Char) : ∀ l ∈ splitNL t, '\n' ∉ l := by
  induction t with
  | nil => intro l hl; simp [splitNL] at hl; simp [hl]
  | cons c rest ih =>
    intro l hl
    rw [splitNL] at hl
    by_cases h : c = '\n'
    · rw [if_pos h] at hl
      rcases List.mem_cons.mp hl with h1 | h1
      · simp [h1]
      · exact ih l h1
    · rw [if_neg h] at hl
      cases hs : splitNL rest with
      | nil => exact absurd hs (splitNL_ne_nil rest)
      | cons m ms =>
        rw [hs, List.modifyHead_cons] at hl
        rcases List.mem_cons.mp hl with h1 | h1
        · subst h1
          intro hm
          rcases List.mem_cons.mp hm with h2 | h2
          · exact h h2.symm
          · exact ih m (hs ▸ List.mem_cons_self m ms) h2
        · exact ih l (hs ▸ List.mem_cons_of_mem m h1)

theorem splitNL_single (t : List Char) (h : '\n' ∉ t) : splitNL t = [t] := by
  induction t with
  | nil => rfl
  | cons c rest ih =>
    have hc : c ≠ '\n' := fun hh => h (hh ▸ List.mem_cons_self c rest)
    have hr : '\n' ∉ rest := fun hm => h (List.mem_cons_of_mem c hm)
    rw [splitNL, if_neg hc, ih hr, List.modifyHead_cons]

theorem modifyHead_modifyHead (f g : List Char → List Char) (u : List (List Char)) :
    List.modifyHead f (List.modifyHead g u) = List.modifyHead (fun x => f (g x)) u := by
  cases u <;> simp

theorem splitNL_append (l s : List Char) (h : '\n' ∉ l) :
    splitNL (l ++ s) = List.modifyHead (fun x => l ++ x) (splitNL s) := by
  induction l with
  | nil =>
    cases hs : splitNL s with
    | nil => exact absurd hs (splitNL_ne_nil s)
    | cons m ms => simp [hs]
  | cons c rest ih =>
    have hc : c ≠ '\n' := fun hh => h (hh ▸ List.mem_cons_self c rest)
    have hr : '\n' ∉ rest := fun hm => h (List.mem_cons_of_mem c hm)
    rw [List.cons_append, splitNL, if_neg hc, ih hr, modifyHead_modifyHead]
    rfl

theorem splitNL_joinNL : ∀ (L : List (List Char)), L ≠ [] → (∀ l ∈ L, '\n' ∉ l) →
    splitNL (joinNL L) = L := by
  intro L
  induction L with
  | nil => intro h; exact absurd rfl h
  | cons x rest ih =>
    intro _ hnl
    cases rest with
    | nil =>
      rw [joinNL]
      exact splitNL_single x (hnl x (List.mem_cons_self x []))
    | cons y t =>
      rw [joinNL, splitNL_append x _ (hnl x (List.mem_cons_self x _)), splitNL, if_pos rfl,
        ih (by simp) (fun l hl => hnl l (List.mem_cons_of_mem x hl)), List.modifyHead_cons,
        List.append_nil]

theorem joinNL_concat (C : List (List Char)) (x : List Char) (h : C ≠ []) :
    joinNL (C ++ [x]) = joinNL C ++ '\n' :: x := by
  induction C with
  | nil => exact absurd rfl h
  | cons a t ih =>
    cases t with
    | nil => rfl
    | cons b u =>
      have ih2 := ih (by simp)
      rw [List.cons_append] at ih2
      simp only [List.cons_append]
      rw [joinNL, joinNL, ih2]
      simp [List.append_assoc]

/-! ## The line-filtering loop: accumulator elimination and invariants -/

theorem lastKeptNonempty_concat (acc : List (List Char)) (s : List Char) :
    lastKeptNonempty (acc ++ [s]) = !s.isEmpty := by
  unfold lastKeptNonempty
  rw [List.getLast?_concat]

theorem cleanLinesGo_eq_cleanFrom :
    ∀ (ls : List (List Char)) (acc : List (List Char)),
      cleanLinesGo acc ls = acc ++ cleanFrom (lastKeptNonempty acc) ls := by
  intro ls
  induction ls with
  | nil => intro acc; simp [cleanLinesGo, cleanFrom]
  | cons l rest ih =>
    intro acc
    rw [cleanLinesGo, cleanFrom]
    by_cases h1 : (pyStrip l).isEmpty = false
    · simp only [h1, Bool.not_false, if_pos]
      rw [ih (acc ++ [pyStrip l]), lastKeptNonempty_concat, h1, List.append_assoc]
      rfl
    · have h1' : (pyStrip l).isEmpty = true := Bool.not_eq_false _ ▸ h1
      simp only [h1', Bool.not_true, Bool.false_eq_true, if_false]
      by_cases h2 : lastKeptNonempty acc = true
      · simp only [h2, if_pos]
        rw [ih (acc ++ [[]]), lastKeptNonempty_concat, List.append_assoc]
        rfl
      · have h2' : lastKeptNonempty acc = false := Bool.not_eq_true _ ▸ h2
        simp only [h2', Bool.false_eq_true, if_false]
        rw [ih acc, h2']

theorem cleanFrom_stripped :
    ∀ (ls : List (List Char)) (flag : Bool) (x : List Char),
      x ∈ cleanFrom flag ls → pyStrip x = x := by
  intro ls
  induction ls with
  | nil => intro flag x hx; simp [cleanFrom] at hx
  | cons l rest ih =>
    intro flag x hx
    rw [cleanFrom] at hx
    by_cases h1 : (pyStrip l).isEmpty = false
    · simp only [h1, Bool.not_false, if_pos] at hx
      rcases List.mem_cons.mp hx with h2 | h2
      · subst h2; exact pyStrip_idem l
      · exact ih true x h2
    · have h1' : (pyStrip l).isEmpty = true := Bool.not_eq_false _ ▸ h1
      simp only [h1', Bool.not_true, Bool.false_eq_true, if_false] at hx
      by_cases h2 : flag = true
      · simp only [h2, if_pos] at hx
        rcases List.mem_cons.mp hx with h3 | h3
        · subst h3; rfl
        · exact ih false x h3
      · have h2' : flag = false := Bool.not_eq_true _ ▸ h2
        rw [h2'] at hx
        simp only [Bool.false_eq_true, if_false] at hx
        exact ih false x hx

theorem cleanFrom_no_nl :
    ∀ (ls : List (List Char)) (flag : Bool), (∀ l ∈ ls, '\n' ∉ l) →
      ∀ x ∈ cleanFrom flag ls, '\n' ∉ x := by
  intro ls
  induction ls with
  | nil => intro flag _ x hx; simp [cleanFrom] at hx
  | cons l rest ih =>
    intro flag hls x hx
    have hl : '\n' ∉ l := hls l (List.mem_cons_self l rest)
    have hrest : ∀ m ∈ rest, '\n' ∉ m := fun m hm => hls m (List.mem_cons_of_mem l hm)
    rw [cleanFrom] at hx
    by_cases h1 : (pyStrip l).isEmpty = false
    · simp only [h1, Bool.not_false, if_pos] at hx
      rcases List.mem_cons.mp hx with h2 | h2
      · subst h2; exact pyStrip_no_nl l hl
      · exact ih true hrest x h2
    · have h1' : (pyStrip l).isEmpty = true := Bool.not_eq_false _ ▸ h1
      simp only [h1', Bool.not_true, Bool.false_eq_true, if_false] at hx
      by_cases h2 : flag = true
      · simp only [h2, if_pos] at hx
        rcases List.mem_cons.mp hx with h3 | h3
        · subst h3; simp
        · exact ih false hrest x h3
      · have h2' : flag = false := Bool.not_eq_true _ ▸ h2
        rw [h2'] at hx
        simp only [Bool.false_eq_true, if_false] at hx
        exact ih false hrest x hx

theorem cleanFrom_wellSpaced :
    ∀ (ls : List (List Char)) (flag : Bool), wellSpaced flag (cleanFrom flag ls) = true := by
  intro ls
  induction ls with
  | nil => intro flag; rfl
  | cons l rest ih =>
    intro flag
    rw [cleanFrom]
    by_cases h1 : (pyStrip l).isEmpty = false
    · simp only [h1, Bool.not_false, if_pos]
      rw [wellSpaced, if_neg (by simp [h1])]
      exact ih true
    · have h1' : (pyStrip l).isEmpty = true := Bool.not_eq_false _ ▸ h1
      simp only [h1', Bool.not_true, Bool.false_eq_true, if_false]
      by_cases h2 : flag = true
      · simp only [h2, if_pos]
        rw [wellSpaced, if_pos (by simp)]
        simp [ih false]
      · have h2' : flag = false := Bool.not_eq_true _ ▸ h2
        rw [h2']
        simp only [Bool.false_eq_true, if_false]
        exact h2' ▸ ih false

theorem cleanFrom_fixpoint :
    ∀ (ls : List (List Char)) (flag : Bool), (∀ x ∈ ls, pyStrip x = x) →
      wellSpaced flag ls = true → cleanFrom flag ls = ls := by
  intro ls
  induction ls with
  | nil => intro flag _ _; rfl
  | cons l rest ih =>
    intro flag hstr hws
    have hl : pyStrip l = l := hstr l (List.mem_cons_self l rest)
    have hrest : ∀ x ∈ rest, pyStrip x = x := fun x hx => hstr x (List.mem_cons_of_mem l hx)
    rw [wellSpaced] at hws
    rw [cleanFrom]
    by_cases h1 : l.isEmpty = true
    · rw [if_pos h1] at hws
      have hflag : flag = true := (Bool.and_elim_left hws)
      have hws2 : wellSpaced false rest = true := (Bool.and_elim_right hws)
      have hle : l = [] := by
        cases l with
        | nil => rfl
        | cons a t => simp at h1
      rw [hle, pyStrip_nil]
      simp only [List.isEmpty_nil, Bool.not_true, Bool.false_eq_true, if_false, hflag, if_pos]
      rw [ih false hrest hws2]
    · rw [if_neg h1] at hws
      rw [hl]
      simp only [h1, Bool.not_eq_true] at *
      simp only [h1, Bool.not_false, if_pos]
      rw [ih true hrest hws]

/-! ## Newline-run bookkeeping for the join -/

theorem containsTriple_append_left (x s : List Char) (h : '\n' ∉ x) :
    containsTriple (x ++ s) = containsTriple s := by
  induction x with
  | nil => rfl
  | cons c t ih =>
    have hc : c ≠ '\n' := fun hh => h (hh ▸ List.mem_cons_self c t)
    have ht : '\n' ∉ t := fun hm => h (List.mem_cons_of_mem c hm)
    rw [List.cons_append, containsTriple, ih ht]
    simp [hc]

theorem take2_ne_of_leadNL_le_one (s : List Char) (h : leadNL s ≤ 1) :
    s.take 2 ≠ ['\n', '\n'] := by
  cases s with
  | nil => simp
  | cons c t =>
    by_cases hc : c = '\n'
    · subst hc
      rw [leadNL, if_pos rfl] at h
      have ht : leadNL t = 0 := by omega
      cases t with
      | nil => simp
      | cons d u =>
        have hd : d ≠ '\n' := by
          intro hh
          rw [leadNL, if_pos hh] at ht
          omega
        simp [List.take, hd]
    · simp [List.take, hc]

theorem leadNL_append_of_head_ne (c : Char) (x s : List Char) (hc : c ≠ '\n') :
    leadNL (c :: x ++ s) = 0 := by
  rw [List.cons_append, leadNL, if_neg hc]

theorem noTriple_joinNL :
    ∀ (C : List (List Char)) (b : Bool), (∀ x ∈ C, '\n' ∉ x) → wellSpaced b C = true →
      containsTriple (joinNL C) = false ∧ leadNL (joinNL C) ≤ (if b then 1 else 0) := by
  intro C
  induction C with
  | nil => intro b _ _; exact ⟨rfl, by simp [joinNL, leadNL]⟩
  | cons x rest ih =>
    intro b hnl hws
    have hxnl : '\n' ∉ x := hnl x (List.mem_cons_self x rest)
    have hrnl : ∀ m ∈ rest, '\n' ∉ m := fun m hm => hnl m (List.mem_cons_of_mem x hm)
    rw [wellSpaced] at hws
    by_cases hx : x.isEmpty = true
    · have hxe : x = [] := by
        cases x with
        | nil => rfl
        | cons a t => simp at hx
      subst hxe
      rw [if_pos (by simp)] at hws
      have hb : b = true := Bool.and_elim_left hws
      have hws2 : wellSpaced false rest = true := Bool.and_elim_right hws
      cases rest with
      | nil => exact ⟨rfl, by simp [joinNL, leadNL]⟩
      | cons y t =>
        obtain ⟨hct, hld⟩ := ih false hrnl hws2
        simp only [Bool.false_eq_true, if_false, Nat.le_zero] at hld
        rw [joinNL, List.nil_append]
        constructor
        · rw [containsTriple, hct]
          have : (joinNL (y :: t)).take 2 ≠ ['\n', '\n'] :=
            take2_ne_of_leadNL_le_one _ (by omega)
          simp [this]
        · rw [leadNL, if_pos rfl, hld, hb]
          simp
    · rw [if_neg hx] at hws
      obtain ⟨c, xt, rfl⟩ : ∃ c t, x = c :: t := by
        cases x with
        | nil => simp at hx
        | cons a t => exact ⟨a, t, rfl⟩
      have hc : c ≠ '\n' := fun hh => hxnl (hh ▸ List.mem_cons_self c xt)
      cases rest with
      | nil =>
        refine ⟨?_, ?_⟩
        · rw [joinNL]
          have : containsTriple ((c :: xt) ++ []) = containsTriple [] :=
            containsTriple_append_left _ [] hxnl
          simpa using this
        · rw [joinNL, leadNL, if_neg hc]
          simp
      | cons y t =>
        obtain ⟨hct, hld⟩ := ih true hrnl hws
        rw [joinNL]
        constructor
        · rw [containsTriple_append_left _ _ hxnl, containsTriple, hct]
          have : (joinNL (y :: t)).take 2 ≠ ['\n', '\n'] :=
            take2_ne_of_leadNL_le_one _ (by simpa using hld)
          simp [this]
        · rw [leadNL_append_of_head_ne c xt _ hc]
          simp

/-! ## The effect of the final `strip` on the joined text -/

theorem wellSpaced_append_double_empty :
    ∀ (u : List (List Char)) (b : Bool), wellSpaced b (u ++ [[], []]) = false := by
  intro u
  induction u with
  | nil =>
    intro b
    simp [wellSpaced]
  | cons a t ih =>
    intro b
    rw [List.cons_append, wellSpaced]
    by_cases ha : a.isEmpty = true
    · rw [if_pos ha, ih false]
      simp
    · rw [if_neg ha, ih true]

theorem wellSpaced_take :
    ∀ (u v : List (List Char)) (b : Bool),
      wellSpaced b (u ++ v) = true → wellSpaced b u = true := by
  intro u
  induction u with
  | nil => intro v b _; rfl
  | cons a t ih =>
    intro v b h
    rw [List.cons_append, wellSpaced] at h
    rw [wellSpaced]
    by_cases ha : a.isEmpty = true
    · rw [if_pos ha] at h ⊢
      rw [Bool.and_elim_left h]
      simp only [Bool.true_and]
      exact ih v false (Bool.and_elim_right h)
    · rw [if_neg ha] at h ⊢
      exact ih v true h

theorem wellSpaced_false_head (l : List Char) (rest : List (List Char))
    (h : wellSpaced false (l :: rest) = true) : l ≠ [] := by
  intro he
  subst he
  rw [wellSpaced, if_pos (by simp)] at h
  simp at h

theorem dropTrail_concat_space (u : List Char) (c : Char) (hc : pyIsSpace c = true) :
    dropTrail (u ++ [c]) = dropTrail u := by
  unfold dropTrail
  rw [List.reverse_append]
  simp only [List.reverse_cons, List.reverse_nil, List.nil_append, List.cons_append]
  rw [List.dropWhile_cons_of_pos hc]

theorem pyStrip_concat_space (u : List Char) (c : Char) (hc : pyIsSpace c = true) :
    pyStrip (u ++ [c]) = pyStrip u := by
  unfold pyStrip
  rw [dropTrail_concat_space u c hc]

theorem joinNL_head? (x : List Char) (rest : List (List Char)) (hx : x ≠ []) :
    (joinNL (x :: rest)).head? = x.head? := by
  obtain ⟨c, t, rfl⟩ : ∃ c t, x = c :: t := by
    cases x with
    | nil => exact absurd rfl hx
    | cons a t => exact ⟨a, t, rfl⟩
  cases rest with
  | nil => rfl
  | cons y u =>
    rw [joinNL]
    simp

theorem joinNL_getLast_concat (C : List (List Char)) (y : List Char) (hy : y ≠ []) :
    (joinNL (C ++ [y])).getLast? = y.getLast? := by
  cases C with
  | nil => simp [joinNL]
  | cons a t =>
    rw [joinNL_concat _ y (by simp)]
    rw [List.getLast?_append_of_ne_nil _ (by simp : ('\n' :: y : List Char) ≠ [])]
    have h2 : ('\n' :: y : List Char) = ['\n'] ++ y := rfl
    rw [h2, List.getLast?_append_of_ne_nil _ hy]

theorem pyStrip_joinNL_self (C : List (List Char))
    (hstr : ∀ x ∈ C, pyStrip x = x) (hws : wellSpaced false C = true)
    (hlast : C.getLast? ≠ some []) :
    pyStrip (joinNL C) = joinNL C := by
  cases C with
  | nil => rfl
  | cons x rest =>
    have hx : x ≠ [] := wellSpaced_false_head x rest hws
    obtain ⟨c, xt, hxc⟩ : ∃ c t, x = c :: t := by
      cases x with
      | nil => exact absurd rfl hx
      | cons a t => exact ⟨a, t, rfl⟩
    have hxstr : pyStrip x = x := hstr x (List.mem_cons_self x rest)
    have hcns : pyIsSpace c = false := by
      apply pyStrip_head_not x c
      rw [hxstr, hxc]
      rfl
    have hhead : (joinNL (x :: rest)).head? = some c := by
      rw [joinNL_head? x rest hx, hxc]
      rfl
    rcases List.eq_nil_or_concat (x :: rest) with hC2 | ⟨D, y, hC2⟩
    · simp at hC2
    rw [List.concat_eq_append] at hC2
    have hy : y ≠ [] := by
      intro hye
      apply hlast
      rw [hC2, hye, List.getLast?_concat]
    obtain ⟨d, hd⟩ : ∃ d, y.getLast? = some d := by
      cases hyy : y with
      | nil => exact absurd hyy hy
      | cons a t => exact ⟨(a :: t).getLast (by simp), by simp [List.getLast?_eq_getLast]⟩
    have hystr : pyStrip y = y := by
      apply hstr y
      rw [hC2]
      exact List.mem_append_right D (List.mem_cons_self y [])
    have hdns : pyIsSpace d = false := by
      apply pyStrip_getLast_not y d
      rw [hystr]
      exact hd
    have hlast2 : (joinNL (x :: rest)).getLast? = some d := by
      rw [hC2, joinNL_getLast_concat D y hy]
      exact hd
    exact pyStrip_eq_self _ c d hhead hcns hlast2 hdns

theorem pyStrip_joinNL (C : List (List Char))
    (hstr : ∀ x ∈ C, pyStrip x = x) (hws : wellSpaced false C = true) :
    pyStrip (joinNL C) = joinNL (dropTrailEmpty C) := by
  rcases List.eq_nil_or_concat C with hC | ⟨D, y, hC⟩
  · subst hC
    rfl
  · rw [List.concat_eq_append] at hC
    subst hC
    by_cases hy : y = []
    · subst hy
      have hDne : D ≠ [] := by
        intro h
        subst h
        simp [wellSpaced] at hws
      rw [dropTrailEmpty, if_pos (List.getLast?_concat D), List.dropLast_concat]
      rw [joinNL_concat D [] hDne]
      have h1 : (joinNL D ++ '\n' :: [] : List Char) = joinNL D ++ ['\n'] := rfl
      rw [h1, pyStrip_concat_space _ '\n' (by decide)]
      apply pyStrip_joinNL_self D
      · exact fun x hx => hstr x (List.mem_append_left _ hx)
      · exact wellSpaced_take D [[]] false hws
      · rcases List.eq_nil_or_concat D with hD | ⟨E, y2, hD⟩
        · exact absurd hD hDne
        rw [List.concat_eq_append] at hD
        subst hD
        rw [List.getLast?_concat]
        intro hy2
        simp only [Option.some.injEq] at hy2
        subst hy2
        have := wellSpaced_append_double_empty E false
        rw [show (E ++ [[]] ++ [[]] : List (List Char)) = E ++ [[], []] by
          rw [List.append_assoc]; rfl] at hws
        rw [this] at hws
        exact Bool.false_ne_true hws
    · rw [dropTrailEmpty, if_neg (by rw [List.getLast?_concat]; simp [hy])]
      apply pyStrip_joinNL_self _ hstr hws
      rw [List.getLast?_concat]
      simp [hy]

theorem mem_dropTrailEmpty (C : List (List Char)) (x : List Char)
    (hx : x ∈ dropTrailEmpty C) : x ∈ C := by
  unfold dropTrailEmpty at hx
  by_cases h : C.getLast? = some []
  · rw [if_pos h] at hx
    exact (List.dropLast_sublist C).subset hx
  · rwa [if_neg h] at hx

theorem wellSpaced_dropTrailEmpty (C : List (List Char))
    (hws : wellSpaced false C = true) : wellSpaced false (dropTrailEmpty C) = true := by
  unfold dropTrailEmpty
  by_cases h : C.getLast? = some []
  · rw [if_pos h]
    have hne : C ≠ [] := by
      intro he
      rw [he] at h
      simp at h
    have hdec : C.dropLast ++ [C.getLast hne] = C := List.dropLast_append_getLast hne
    apply wellSpaced_take C.dropLast [C.getLast hne] false
    rwa [hdec]
  · rwa [if_neg h]

theorem pyStrip_infixOf (s : List Char) : pyStrip s <:+: s := by
  obtain ⟨u, hu⟩ : (dropTrail s).dropWhile pyIsSpace <:+ dropTrail s :=
    List.dropWhile_suffix pyIsSpace
  obtain ⟨w, hw⟩ : s.reverse.dropWhile pyIsSpace <:+ s.reverse :=
    List.dropWhile_suffix pyIsSpace
  have hv : dropTrail s ++ w.reverse = s := by
    unfold dropTrail
    have h2 := congrArg List.reverse hw
    rwa [List.reverse_append, List.reverse_reverse] at h2
  refine ⟨u, w.reverse, ?_⟩
  unfold pyStrip
  rw [hu, hv]

theorem containsTriple_of_triple (s : List Char)
    (h : ['\n', '\n', '\n'] <:+: s) : containsTriple s = true := by
  obtain ⟨u, v, huv⟩ := h
  subst huv
  induction u with
  | nil => simp [containsTriple, List.take]
  | cons c t ih =>
    rw [List.append_assoc] at *
    rw [List.cons_append, containsTriple]
    rw [ih]
    simp

/-- Round-two behaviour of `_clean_text`: on the join of an already clean
line list the whole pipeline reduces to the final `strip`. -/
theorem cleanText_of_clean (C : List (List Char))
    (hstr : ∀ x ∈ C, pyStrip x = x) (hnl : ∀ x ∈ C, '\n' ∉ x)
    (hws : wellSpaced false C = true) :
    cleanText (joinNL C) = pyStrip (joinNL C) := by
  by_cases hF : (joinNL C).isEmpty = true
  · rw [cleanText, if_pos hF]
    have hje : joinNL C = [] := by
      cases hj : joinNL C with
      | nil => rfl
      | cons a t => rw [hj] at hF; simp at hF
    rw [hje, pyStrip_nil]
  · rw [cleanText, if_neg hF]
    have hCne : C ≠ [] := by
      intro h
      subst h
      simp [joinNL] at hF
    rw [cleanLinesGo_eq_cleanFrom, List.nil_append,
      show lastKeptNonempty [] = false from rfl]
    rw [splitNL_joinNL C hCne hnl, cleanFrom_fixpoint C false hstr hws]
    rw [collapseTriples_of_no_triple _ (noTriple_joinNL C false hnl hws).1]

/-! ## Claim theorems for `_clean_text` -/

/-- C5: page-text normalization is idempotent — `_clean_text` applied to
its own output returns that output unchanged. -/
theorem cleanText_idempotent (t : List Char) :
    cleanText (cleanText t) = cleanText t := by
  by_cases ht : t.isEmpty = true
  · have hte : cleanText t = [] := by rw [cleanText, if_pos ht]
    rw [hte]
    decide
  · have h1 : cleanText t
        = pyStrip (collapseTriples (joinNL (cleanFrom false (splitNL t)))) := by
      rw [cleanText, if_neg ht, cleanLinesGo_eq_cleanFrom,
        List.nil_append, show lastKeptNonempty [] = false from rfl]
    have hstr1 : ∀ x ∈ cleanFrom false (splitNL t), pyStrip x = x :=
      fun x hx => cleanFrom_stripped (splitNL t) false x hx
    have hnl1 : ∀ x ∈ cleanFrom false (splitNL t), '\n' ∉ x :=
      fun x hx => cleanFrom_no_nl (splitNL t) false (splitNL_no_nl t) x hx
    have hws1 : wellSpaced false (cleanFrom false (splitNL t)) = true :=
      cleanFrom_wellSpaced (splitNL t) false
    have hcoll : collapseTriples (joinNL (cleanFrom false (splitNL t)))
        = joinNL (cleanFrom false (splitNL t)) :=
      collapseTriples_of_no_triple _ (noTriple_joinNL _ false hnl1 hws1).1
    have h2 : cleanText t = joinNL (dropTrailEmpty (cleanFrom false (splitNL t))) := by
      rw [h1, hcoll, pyStrip_joinNL _ hstr1 hws1]
    have hstr2 : ∀ x ∈ dropTrailEmpty (cleanFrom false (splitNL t)), pyStrip x = x :=
      fun x hx => hstr1 x (mem_dropTrailEmpty _ x hx)
    have hnl2 : ∀ x ∈ dropTrailEmpty (cleanFrom false (splitNL t)), '\n' ∉ x :=
      fun x hx => hnl1 x (mem_dropTrailEmpty _ x hx)
    have hws2 : wellSpaced false (dropTrailEmpty (cleanFrom false (splitNL t))) = true :=
      wellSpaced_dropTrailEmpty _ hws1
    rw [h2, cleanText_of_clean _ hstr2 hnl2 hws2, ← h2, h1]
    exact pyStrip_idem _

/-- C6: for every input, the normalized output contains no three
consecutive newline characters (so every run of blank lines is collapsed
to at most one blank line), and empty input yields empty output. -/
theorem cleanText_no_triple_newline (t : List Char) :
    ¬ (['\n', '\n', '\n'] <:+: cleanText t) ∧ cleanText [] = [] := by
  refine ⟨?_, rfl⟩
  intro habs
  by_cases ht : t.isEmpty = true
  · rw [cleanText, if_pos ht] at habs
    obtain ⟨a, b, hab⟩ := habs
    simp at hab
  · rw [cleanText, if_neg ht] at habs
    have h2 : ['\n', '\n', '\n']
        <:+: collapseTriples (joinNL (cleanLinesGo [] (splitNL t))) :=
      habs.trans (pyStrip_infixOf _)
    have h3 := containsTriple_of_triple _ h2
    rw [containsTriple_collapseTriples] at h3
    exact Bool.false_ne_true h3

/-! ## Claim theorems for header/footer removal and assembly -/

/-- C7: header/footer removal is a no-op — the same records, with the same
contents, and an unchanged store — when fewer than 3 pages are passed or
the feature is disabled. -/
theorem removeHF_noop_small_or_disabled (cfg : PdfConfig) (pages : List PageData)
    (store : List (List Char)) (refs : List Nat)
    (h : pages.length < 3 ∨ cfg.removeHeadersFooters = false)
    (h2 : refs.length = pages.length) :
    removeHFPure cfg pages = pages ∧ removeHFWrite cfg store refs = (store, refs) := by
  have hcond : (pages.length < 3 || !cfg.removeHeadersFooters) = true := by
    rcases h with h | h
    · simp [h]
    · simp [h]
  constructor
  · unfold removeHFPure
    rw [if_pos hcond]
  · unfold removeHFWrite
    rw [if_pos (by rw [h2]; exact hcond)]

theorem removeHF_noop_small_or_disabled_witness :
    removeHFPure ⟨true, 10⟩ [⟨"only page".data, 2⟩] = [⟨"only page".data, 2⟩] ∧
    removeHFWrite ⟨true, 10⟩ ["only page".data] [0] = (["only page".data], [0]) :=
  removeHF_noop_small_or_disabled _ _ _ _ (Or.inl (by decide)) (by decide)

/-- C8: the assembled full text is exactly the double-newline join of the
retained pages' texts, in order, skipping empty texts, and the
processed-page count is the length of the retained page list. -/
theorem parsePdf_fullText_join (cfg : PdfConfig) (raws : List (List Char)) :
    (parsePdfPure cfg raws).fullText
      = joinDNL (((parsePdfPure cfg raws).pages.map (fun p => p.text)).filter
          (fun t => !t.isEmpty)) ∧
    (parsePdfPure cfg raws).processedPages = (parsePdfPure cfg raws).pages.length :=
  ⟨rfl, rfl⟩

/-- C3 (amended): the per-page rewrite of header/footer removal drops at
most one line from the start and at most one line from the end of the line
list, and then strips the rejoined text of surrounding whitespace — which
can remove further blank lines adjacent to the dropped ones. -/
theorem hfStripPage_line_bound (headers footers : List (List Char)) (t : List Char) :
    ∃ k m, k ≤ 1 ∧ m ≤ 1 ∧
      hfStripPage headers footers t = pyStrip (joinNL (dropEnds k m (splitNL t))) := by
  unfold hfStripPage hfDropFooter hfDropHeader
  by_cases h1 : (!(splitNL t).isEmpty && !headers.isEmpty
      && matchesAny headers ((splitNL t).headD [])) = true
  · rw [if_pos h1]
    by_cases h2 : (!(splitNL t).tail.isEmpty && !footers.isEmpty
        && matchesAny footers ((splitNL t).tail.getLastD [])) = true
    · refine ⟨1, 1, Nat.le_refl 1, Nat.le_refl 1, ?_⟩
      rw [if_pos h2]
      unfold dropEnds
      rw [List.drop_one, ← List.dropLast_eq_take]
    · refine ⟨1, 0, Nat.le_refl 1, Nat.zero_le 1, ?_⟩
      rw [if_neg h2]
      unfold dropEnds
      rw [List.drop_one, Nat.sub_zero, List.take_length]
  · rw [if_neg h1]
    by_cases h2 : (!(splitNL t).isEmpty && !footers.isEmpty
        && matchesAny footers ((splitNL t).getLastD [])) = true
    · refine ⟨0, 1, Nat.zero_le 1, Nat.le_refl 1, ?_⟩
      rw [if_pos h2]
      unfold dropEnds
      rw [List.drop_zero, ← List.dropLast_eq_take]
    · refine ⟨0, 0, Nat.zero_le 1, Nat.zero_le 1, ?_⟩
      rw [if_neg h2]
      unfold dropEnds
      rw [List.drop_zero, Nat.sub_zero, List.take_length]

/-- C3 counterexample: three normalized pages sharing the header line `H`
followed by a blank line; removal drops the header and the final strip then
also drops the blank, so the first page loses two leading lines — its
resulting line list is none of the four drop-at-most-one-each-end
variants. -/
theorem hf_removal_drops_two_leading_lines :
    cleanText "H\n\nb1".data = "H\n\nb1".data ∧
    ((removeHFPure ⟨true, 0⟩
        [⟨"H\n\nb1".data, 2⟩, ⟨"H\n\nb2".data, 2⟩, ⟨"H\n\nb3".data, 2⟩]).map
      (fun p => splitNL p.text)) = [["b1".data], ["b2".data], ["b3".data]] ∧
    ["b1".data] ≠ dropEnds 0 0 (splitNL "H\n\nb1".data) ∧
    ["b1".data] ≠ dropEnds 0 1 (splitNL "H\n\nb1".data) ∧
    ["b1".data] ≠ dropEnds 1 0 (splitNL "H\n\nb1".data) ∧
    ["b1".data] ≠ dropEnds 1 1 (splitNL "H\n\nb1".data) := by
  decide

/-- C9: the transaction extractor keeps at most 5 transactions — exactly
the first 5 matches in document order — with trimmed descriptions and
`$`-prefixed amounts. -/
theorem extractTransactions_cap_trim_sigil (ms : List TxnMatch) :
    (extractTransactions ms).length ≤ 5 ∧
    extractTransactions ms = (ms.take 5).map mkTxn ∧
    ∀ tx ∈ extractTransactions ms,
      pyStrip tx.description = tx.description ∧ tx.amount.head? = some '$' := by
  refine ⟨?_, rfl, ?_⟩
  · unfold extractTransactions
    rw [List.length_map]
    exact List.length_take_le 5 ms
  · intro tx htx
    unfold extractTransactions at htx
    obtain ⟨m, hm, rfl⟩ := List.mem_map.mp htx
    refine ⟨pyStrip_idem m.desc, ?_⟩
    unfold mkTxn
    by_cases h : m.amount.head? = some '$'
    · rw [if_pos h]
      exact h
    · rw [if_neg h]
      rfl

theorem extractTransactions_cap_trim_sigil_witness :
    (extractTransactions
        [⟨"01/02/2024".data, "  COFFEE SHOP ".data, "5.00".data⟩]).length ≤ 5 ∧
    pyStrip (mkTxn ⟨"01/02/2024".data, "  COFFEE SHOP ".data, "5.00".data⟩).description
      = (mkTxn ⟨"01/02/2024".data, "  COFFEE SHOP ".data, "5.00".data⟩).description ∧
    (mkTxn ⟨"01/02/2024".data, "  COFFEE SHOP ".data, "5.00".data⟩).amount.head?
      = some '$' := by
  have h := extractTransactions_cap_trim_sigil
    [⟨"01/02/2024".data, "  COFFEE SHOP ".data, "5.00".data⟩]
  exact ⟨h.1, (h.2.2 _ (by decide)).1, (h.2.2 _ (by decide)).2⟩

/-! ## Claim theorems for the retained-page invariant -/

theorem parsePdfPure_pages (cfg : PdfConfig) (raws : List (List Char)) :
    (parsePdfPure cfg raws).pages
      = removeHFPure cfg ((raws.map extractPage).filter
          (fun p => cfg.minTextLength ≤ p.text.length)) := rfl

/-- C2 counterexample: with `min_text_length = 10` and three pages whose
whole text is the ten-character line `HEADERLINE`, the length filter keeps
all three pages, and header/footer removal — which runs after the filter —
then strips that shared line from each, leaving empty texts: the assembled
document holds pages of length 0 < 10. -/
theorem retained_page_below_min :
    ((parsePdfPure ⟨true, 10⟩
        ["HEADERLINE".data, "HEADERLINE".data, "HEADERLINE".data]).pages.map
      (fun p => p.text)) = [[], [], []] ∧
    ¬ (∀ p ∈ (parsePdfPure ⟨true, 10⟩
        ["HEADERLINE".data, "HEADERLINE".data, "HEADERLINE".data]).pages,
        10 ≤ p.text.length) := by
  decide

/-- C2 (amended): every page retained by the length filter meets the
minimum at filter time — before header/footer removal — and every page of
the assembled document meets it whenever removal is a no-op (feature
disabled, or fewer than three retained pages). -/
theorem retained_min_length_pre_removal (cfg : PdfConfig) (raws : List (List Char)) :
    (∀ p ∈ (raws.map extractPage).filter (fun p => cfg.minTextLength ≤ p.text.length),
      cfg.minTextLength ≤ p.text.length) ∧
    ((cfg.removeHeadersFooters = false ∨
        ((raws.map extractPage).filter
          (fun p => cfg.minTextLength ≤ p.text.length)).length < 3) →
      ∀ p ∈ (parsePdfPure cfg raws).pages, cfg.minTextLength ≤ p.text.length) := by
  constructor
  · intro p hp
    exact of_decide_eq_true (List.mem_filter.mp hp).2
  · intro h p hp
    rw [parsePdfPure_pages] at hp
    have hnoop : removeHFPure cfg ((raws.map extractPage).filter
        (fun p => cfg.minTextLength ≤ p.text.length))
        = (raws.map extractPage).filter (fun p => cfg.minTextLength ≤ p.text.length) := by
      unfold removeHFPure
      rw [if_pos]
      rcases h with h | h
      · simp [h]
      · simp [h]
    rw [hnoop] at hp
    exact of_decide_eq_true (List.mem_filter.mp hp).2

theorem retained_min_length_pre_removal_witness :
    (∀ p ∈ (["a statement page".data].map extractPage).filter
        (fun p => (10 : Nat) ≤ p.text.length), (10 : Nat) ≤ p.text.length) ∧
    (∀ p ∈ (parsePdfPure ⟨false, 10⟩ ["a statement page".data]).pages,
      (10 : Nat) ≤ p.text.length) := by
  have h := retained_min_length_pre_removal ⟨false, 10⟩ ["a statement page".data]
  exact ⟨h.1, h.2 (Or.inl rfl)⟩

/-! ## Claim theorems for the in-place update -/

theorem getD_set_ne (l : List (List Char)) (i j : Nat) (a : List Char) (h : i ≠ j) :
    (l.set i a).getD j [] = l.getD j [] := by
  rw [List.getD_eq_getElem?_getD, List.getD_eq_getElem?_getD, List.getElem?_set_ne h]

theorem foldl_set_frame (g : List (List Char) → Nat → List Char) :
    ∀ (refs : List Nat) (st : List (List Char)) (i : Nat), i ∉ refs →
      (refs.foldl (fun st r => st.set r (g st r)) st).getD i [] = st.getD i [] := by
  intro refs
  induction refs with
  | nil => intro st i _; rfl
  | cons r rest ih =>
    intro st i hi
    rw [List.foldl_cons]
    have hir : i ≠ r := fun hh => hi (hh ▸ List.mem_cons_self r rest)
    rw [ih _ i (fun hh => hi (List.mem_cons_of_mem r hh))]
    exact getD_set_ne st r i (g st r) (Ne.symm hir)

/-- C4 counterexample: the record passed in at store index 0 holds a
different text after the call — `_remove_headers_footers` overwrote
`page_data["text"]` through the input reference — and the returned list is
the very input list, not a fresh value. -/
theorem removeHF_mutates_input_record :
    ((removeHFWrite ⟨true, 0⟩ ["H\nb1".data, "H\nb2".data, "H\nb3".data]
        [0, 1, 2]).1.getD 0 []
      ≠ ["H\nb1".data, "H\nb2".data, "H\nb3".data].getD 0 []) ∧
    (removeHFWrite ⟨true, 0⟩ ["H\nb1".data, "H\nb2".data, "H\nb3".data] [0, 1, 2]).2
      = [0, 1, 2] := by
  decide

/-- C4 (amended): header/footer removal updates the page records in place:
it returns the very list of records it was given, rewriting their text
fields in the store, and store entries outside the passed-in records are
untouched. -/
theorem removeHF_in_place_update (cfg : PdfConfig) (store : List (List Char))
    (refs : List Nat) (i : Nat) (hi : i ∉ refs) :
    (removeHFWrite cfg store refs).2 = refs ∧
    (removeHFWrite cfg store refs).1.getD i [] = store.getD i [] := by
  unfold removeHFWrite
  by_cases h : (refs.length < 3 || !cfg.removeHeadersFooters) = true
  · rw [if_pos h]
    exact ⟨rfl, rfl⟩
  · rw [if_neg h]
    exact ⟨rfl, foldl_set_frame _ refs store i hi⟩

theorem removeHF_in_place_update_witness :
    (removeHFWrite ⟨true, 0⟩ ["H\nb1".data, "H\nb2".data, "H\nb3".data] [0, 1, 2]).2
      = [0, 1, 2] ∧
    (removeHFWrite ⟨true, 0⟩ ["H\nb1".data, "H\nb2".data, "H\nb3".data]
        [0, 1, 2]).1.getD 5 []
      = ["H\nb1".data, "H\nb2".data, "H\nb3".data].getD 5 [] :=
  removeHF_in_place_update ⟨true, 0⟩ ["H\nb1".data, "H\nb2".data, "H\nb3".data]
    [0, 1, 2] 5 (by decide)

/-! ## Claim theorems for issuer classification and the error path -/

/-- C10: because classification searches each keyword as a substring of the
lower-cased text and the American Express entry precedes Chase in the
table, any text containing the word `purchases` (which contains `chase`)
and no American Express keyword classifies as Chase. -/
theorem detectIssuer_purchases_chase (t : List Char)
    (h1 : "purchases".data <:+: pyLower t)
    (h2 : ¬ ("american express".data <:+: pyLower t))
    (h3 : ¬ ("amex".data <:+: pyLower t)) :
    detectIssuer t = "Chase" := by
  have hchase : "chase".data <:+: pyLower t := List.IsInfix.trans (by decide) h1
  have e1 : (["american express".data, "amex".data] : List (List Char)).any
      (fun kw => decide (kw <:+: pyLower t)) = false := by
    simp only [List.any_cons, List.any_nil, Bool.or_false]
    rw [decide_eq_false h2, decide_eq_false h3]
    rfl
  have e2 : (["chase".data, "jpmorgan chase".data] : List (List Char)).any
      (fun kw => decide (kw <:+: pyLower t)) = true := by
    simp only [List.any_cons]
    rw [decide_eq_true hchase]
    rfl
  unfold detectIssuer issuerTable
  simp only [List.find?, e1, e2]

theorem detectIssuer_purchases_chase_witness :
    ("purchases".data <:+: pyLower "Monthly purchases total".data) ∧
    ¬ ("american express".data <:+: pyLower "Monthly purchases total".data) ∧
    ¬ ("amex".data <:+: pyLower "Monthly purchases total".data) ∧
    detectIssuer "Monthly purchases total".data = "Chase" :=
  ⟨by decide, by decide, by decide,
    detectIssuer_purchases_chase _ (by decide) (by decide) (by decide)⟩

/-- C1 (code evaluation at the failing input): when the underlying PDF
parse raises, the `except` clause of `parse_statement` evaluates
`time.now()`, which itself raises `AttributeError`; the exception
propagates out of `parse_statement` instead of the documented error record
with `issuer = "Unknown"` being returned. -/
theorem parseStatement_raises_on_failure :
    parseStatement (fun _ => ⟨none, none, none, none, []⟩) "2024-01-01T00:00:00"
        (Except.error (PyErr.ioError "No such file or directory: missing.pdf"))
      = Except.error (PyErr.attributeError "module time has no attribute now") := rfl

end CCStmt
